import Mathlib

/-!
Verification of the MBAR solver core (`pymbar/mbar_solvers.py`).

The numerical routines of the source file are embedded shallowly over the real
numbers: the energy matrix `u_kn` is a function `Fin K → Fin n → ℝ` (state index
first, as in the source), the count vector `N_k` and the free-energy vector
`f_k` are functions `Fin K → ℝ`.  Floating-point evaluation is replaced by exact
real arithmetic; the max-subtraction shift inside `logsumexp` is the identity in
exact arithmetic, so `logsumexp` is embedded by its mathematical value.
External library calls (`scipy.optimize`, `numpy.linalg.lstsq`) are abstracted
as explicit function parameters, so all theorems quantify over their behaviour.
-/

open scoped Classical

namespace Pymbar

noncomputable section

/-- Modelled from the spec: `pymbar.utils.logsumexp` is imported by
`mbar_solvers.py` but its file is not among the sources; spec section 4.1
defines it as `log(sum_i weights[i] * exp(x[i]))` over the reduction axis, the
max-subtraction shift being the identity in exact real arithmetic.  `b` is the
optional weight vector (all ones when the source omits it). -/
def logsumexp {ι : Type} (s : Finset ι) (b : ι → ℝ) (x : ι → ℝ) : ℝ :=
  Real.log (∑ k ∈ s, b k * Real.exp (x k))

variable {K n : ℕ}

/-- `log_denominator_n = logsumexp(f_k - u_kn.T, b=N_k, axis=1)` as computed at
lines 103, 143 and 208 of `mbar_solvers.py`: the weighted reduction runs over
all states, states with `N[k] = 0` entering with weight zero. -/
def log_denominator_n (u : Fin K → Fin n → ℝ) (N f : Fin K → ℝ) (i : Fin n) : ℝ :=
  logsumexp Finset.univ N (fun k => f k - u k i)

/-- `states_with_samples = (N_k > 0)` (line 70): the set of populated states. -/
def states_with_samples (N : Fin K → ℝ) : Finset (Fin K) :=
  Finset.univ.filter (fun k => 0 < N k)

/-- The denominator reduction of `self_consistent_update` (line 73): the
reduction is taken only over the rows with `N[k] > 0`. -/
def scu_log_denominator_n (u : Fin K → Fin n → ℝ) (N f : Fin K → ℝ) (i : Fin n) : ℝ :=
  logsumexp (states_with_samples N) N (fun k => f k - u k i)

/-- `self_consistent_update` (lines 46-76): denominator over populated states
only, numerator over all states. -/
def self_consistent_update (u : Fin K → Fin n → ℝ) (N f : Fin K → ℝ) (k : Fin K) : ℝ :=
  -logsumexp Finset.univ (fun _ => (1 : ℝ)) (fun i => -scu_log_denominator_n u N f i - u k i)

/-- `log_numerator_k = logsumexp(-log_denominator_n - u_kn, axis=1)`
(lines 104, 144). -/
def log_numerator_k (u : Fin K → Fin n → ℝ) (N f : Fin K → ℝ) (k : Fin K) : ℝ :=
  logsumexp Finset.univ (fun _ => (1 : ℝ)) (fun i => -log_denominator_n u N f i - u k i)

/-- `mbar_gradient` (lines 80-105): `-N_k * (1 - exp(f_k + log_numerator_k))`. -/
def mbar_gradient (u : Fin K → Fin n → ℝ) (N f : Fin K → ℝ) (k : Fin K) : ℝ :=
  -N k * (1 - Real.exp (f k + log_numerator_k u N f k))

/-- The objective value of `mbar_objective_and_gradient` (line 147):
`math.fsum(log_denominator_n) - N_k.dot(f_k)`; `math.fsum` is an exact sum. -/
def mbar_objective (u : Fin K → Fin n → ℝ) (N f : Fin K → ℝ) : ℝ :=
  (∑ i, log_denominator_n u N f i) - ∑ k, N k * f k

/-- `mbar_objective_and_gradient` (lines 108-149): returns the pair
`(obj, grad)`, the gradient formula being the same as in `mbar_gradient`. -/
def mbar_objective_and_gradient (u : Fin K → Fin n → ℝ) (N f : Fin K → ℝ) :
    ℝ × (Fin K → ℝ) :=
  (mbar_objective u N f, mbar_gradient u N f)

/-- `mbar_log_W_nk` (lines 185-210): `f_k - u_kn.T - log_denominator_n`. -/
def mbar_log_W_nk (u : Fin K → Fin n → ℝ) (N f : Fin K → ℝ) (i : Fin n) (k : Fin K) : ℝ :=
  f k - u k i - log_denominator_n u N f i

/-- `mbar_W_nk` (lines 212-233): `exp(mbar_log_W_nk)`. -/
def mbar_W_nk (u : Fin K → Fin n → ℝ) (N f : Fin K → ℝ) (i : Fin n) (k : Fin K) : ℝ :=
  Real.exp (mbar_log_W_nk u N f i k)

/-- `mbar_hessian` (lines 152-182): `-(W.T W ∘ (N⊗N) - diag(col_sums(W) * N))`,
tracing the in-place scalings `H *= N_k`, `H *= N_k[:, newaxis]`,
`H -= diag(W.sum(0) * N_k)`, `return -1.0 * H`. -/
def mbar_hessian (u : Fin K → Fin n → ℝ) (N f : Fin K → ℝ) (j k : Fin K) : ℝ :=
  -(N j * N k * (∑ i, mbar_W_nk u N f i j * mbar_W_nk u N f i k)
      - (if j = k then (∑ i, mbar_W_nk u N f i k) * N k else 0))

/-! ### Spec-side variants for claim C1

The claim compares each core function with "the result obtained after deleting
the zero-count rows from the denominator reduction".  The following variants
are written from those words: every denominator reduction runs only over the
rows in `states_with_samples N`, numerators untouched. -/

/-- The per-sample log denominator with the zero-count rows deleted. -/
def log_denominator_deleted (u : Fin K → Fin n → ℝ) (N f : Fin K → ℝ) (i : Fin n) : ℝ :=
  logsumexp (states_with_samples N) N (fun k => f k - u k i)

/-- `self_consistent_update` with the zero-count rows deleted from the
denominator reduction. -/
def self_consistent_update_deleted (u : Fin K → Fin n → ℝ) (N f : Fin K → ℝ) (k : Fin K) : ℝ :=
  -logsumexp Finset.univ (fun _ => (1 : ℝ)) (fun i => -log_denominator_deleted u N f i - u k i)

/-- `log_numerator_k` with the zero-count rows deleted from the denominator. -/
def log_numerator_deleted (u : Fin K → Fin n → ℝ) (N f : Fin K → ℝ) (k : Fin K) : ℝ :=
  logsumexp Finset.univ (fun _ => (1 : ℝ)) (fun i => -log_denominator_deleted u N f i - u k i)

/-- `mbar_gradient` with the zero-count rows deleted from the denominator. -/
def mbar_gradient_deleted (u : Fin K → Fin n → ℝ) (N f : Fin K → ℝ) (k : Fin K) : ℝ :=
  -N k * (1 - Real.exp (f k + log_numerator_deleted u N f k))

/-- The objective with the zero-count rows deleted from the denominator. -/
def mbar_objective_deleted (u : Fin K → Fin n → ℝ) (N f : Fin K → ℝ) : ℝ :=
  (∑ i, log_denominator_deleted u N f i) - ∑ k, N k * f k

/-- `mbar_log_W_nk` with the zero-count rows deleted from the denominator. -/
def mbar_log_W_nk_deleted (u : Fin K → Fin n → ℝ) (N f : Fin K → ℝ) (i : Fin n) (k : Fin K) : ℝ :=
  f k - u k i - log_denominator_deleted u N f i

/-! ### Helper lemmas -/

/-- Dropping the zero-weight rows leaves a nonnegatively weighted sum
unchanged. -/
theorem sum_states_with_samples_eq (N : Fin K → ℝ) (hN : ∀ k, 0 ≤ N k) (g : Fin K → ℝ) :
    ∑ k ∈ states_with_samples N, N k * g k = ∑ k, N k * g k := by
  refine Finset.sum_subset (Finset.filter_subset _ _) ?_
  intro k _ hk
  have h0 : ¬ 0 < N k := by simpa [states_with_samples] using hk
  have hz : N k = 0 := le_antisymm (not_lt.mp h0) (hN k)
  simp [hz]

/-- With nonnegative counts, the deleted denominator coincides with the
zero-weighted one. -/
theorem log_denominator_deleted_eq (u : Fin K → Fin n → ℝ) (N f : Fin K → ℝ)
    (hN : ∀ k, 0 ≤ N k) (i : Fin n) :
    log_denominator_deleted u N f i = log_denominator_n u N f i := by
  unfold log_denominator_deleted log_denominator_n logsumexp
  rw [sum_states_with_samples_eq N hN]

/-- C1: in each core MBAR function the per-sample denominator reduction is
effectively restricted to the states with `N[k] > 0` (literally so in
`self_consistent_update`, by zero weighting in the others), every state still
receiving a numerator contribution; hence for nonnegative counts each function
returns exactly the value obtained after deleting the zero-count rows from the
denominator reduction. -/
theorem denominator_zero_count_deletion (u : Fin K → Fin n → ℝ) (N f : Fin K → ℝ)
    (hN : ∀ k, 0 ≤ N k) :
    self_consistent_update u N f = self_consistent_update_deleted u N f ∧
    mbar_gradient u N f = mbar_gradient_deleted u N f ∧
    mbar_objective_and_gradient u N f
      = (mbar_objective_deleted u N f, mbar_gradient_deleted u N f) ∧
    mbar_log_W_nk u N f = mbar_log_W_nk_deleted u N f := by
  have hld := log_denominator_deleted_eq u N f hN
  have hnum : ∀ k, log_numerator_deleted u N f k = log_numerator_k u N f k := by
    intro k
    unfold log_numerator_deleted log_numerator_k logsumexp
    simp only [hld]
  have hgrad : mbar_gradient u N f = mbar_gradient_deleted u N f := by
    funext k
    unfold mbar_gradient mbar_gradient_deleted
    rw [hnum k]
  refine ⟨?_, hgrad, ?_, ?_⟩
  · funext k
    unfold self_consistent_update self_consistent_update_deleted
      scu_log_denominator_n log_denominator_deleted
    rfl
  · unfold mbar_objective_and_gradient
    refine Prod.ext ?_ ?_
    · show mbar_objective u N f = mbar_objective_deleted u N f
      unfold mbar_objective mbar_objective_deleted
      have : ∑ i, log_denominator_deleted u N f i = ∑ i, log_denominator_n u N f i :=
        Finset.sum_congr rfl (fun i _ => hld i)
      rw [this]
    · exact hgrad
  · funext i k
    unfold mbar_log_W_nk mbar_log_W_nk_deleted
    rw [hld i]

/-- Witness for C1 at a concrete input with a zero-count state. -/
theorem denominator_zero_count_deletion_witness :
    (∀ k : Fin 2, 0 ≤ (![1, 0] : Fin 2 → ℝ) k) ∧
    mbar_gradient (fun (_ : Fin 2) (_ : Fin 1) => (0 : ℝ)) ![1, 0] (fun _ => 0)
      = mbar_gradient_deleted (fun (_ : Fin 2) (_ : Fin 1) => (0 : ℝ)) ![1, 0] (fun _ => 0) := by
  have hN : ∀ k : Fin 2, 0 ≤ (![1, 0] : Fin 2 → ℝ) k := by
    intro k
    fin_cases k <;> norm_num
  exact ⟨hN, (denominator_zero_count_deletion (fun _ _ => 0) ![1, 0] (fun _ => 0) hN).2.1⟩

/-! ### Preconditioner -/

/-- `u_kn.min(0)` (line 374): the per-sample minimum over states (junk value 0
when `K = 0`, a shape numpy rejects before reaching this point). -/
def column_min (u : Fin K → Fin n → ℝ) (i : Fin n) : ℝ :=
  if h : (Finset.univ : Finset (Fin K)).Nonempty then Finset.univ.inf' h (fun k => u k i)
  else 0

/-- `precondition_u_kn` (lines 348-376): subtract the per-sample minimum over
states from `u_kn`, then add `logsumexp(f_k - u_kn.T, b=N_k, axis=1) -
N_k.dot(f_k) / N_k.sum()` (the logsumexp being evaluated on the already
min-subtracted matrix). -/
def precondition_u_kn (u : Fin K → Fin n → ℝ) (N f : Fin K → ℝ) (k : Fin K) (i : Fin n) : ℝ :=
  (u k i - column_min u i)
    + (logsumexp Finset.univ N (fun j => f j - (u j i - column_min u i))
        - (∑ j, N j * f j) / (∑ j, N j))

/-! ### Positivity and shift helper lemmas -/

/-- A nonnegatively weighted exponential sum with at least one positive weight
is positive. -/
theorem den_pos (N : Fin K → ℝ) (x : Fin K → ℝ) (hN0 : ∀ k, 0 ≤ N k)
    (hNex : ∃ k, 0 < N k) : 0 < ∑ k, N k * Real.exp (x k) := by
  obtain ⟨k0, hk0⟩ := hNex
  exact Finset.sum_pos' (fun k _ => mul_nonneg (hN0 k) (Real.exp_pos _).le)
    ⟨k0, Finset.mem_univ _, mul_pos hk0 (Real.exp_pos _)⟩

/-- The filtered weighted exponential sum over the populated states is positive
as soon as one state is populated. -/
theorem den_filter_pos (N : Fin K → ℝ) (x : Fin K → ℝ) (hNex : ∃ k, 0 < N k) :
    0 < ∑ k ∈ states_with_samples N, N k * Real.exp (x k) := by
  obtain ⟨k0, hk0⟩ := hNex
  refine Finset.sum_pos (fun k hk => ?_) ⟨k0, ?_⟩
  · have : 0 < N k := (Finset.mem_filter.mp hk).2
    exact mul_pos this (Real.exp_pos _)
  · exact Finset.mem_filter.mpr ⟨Finset.mem_univ _, hk0⟩

/-- A weight-one exponential sum over a nonempty sample range is positive. -/
theorem one_exp_sum_pos (hn : 0 < n) (x : Fin n → ℝ) :
    0 < ∑ i, (1 : ℝ) * Real.exp (x i) := by
  refine Finset.sum_pos (fun i _ => by positivity) ?_
  exact Finset.univ_nonempty_iff.mpr (Fin.pos_iff_nonempty.mp hn)

/-- `logsumexp` only depends on the pointwise values of its argument. -/
theorem logsumexp_congr {ι : Type} (s : Finset ι) (b : ι → ℝ) {x y : ι → ℝ}
    (h : ∀ k, x k = y k) : logsumexp s b x = logsumexp s b y := by
  unfold logsumexp
  congr 1
  exact Finset.sum_congr rfl (fun k _ => by rw [h k])

/-- Adding a constant to every exponent shifts a positive `logsumexp` by that
constant. -/
theorem logsumexp_shift_all {ι : Type} (s : Finset ι) (b x : ι → ℝ) (c : ℝ)
    (hpos : 0 < ∑ k ∈ s, b k * Real.exp (x k)) :
    logsumexp s b (fun k => x k + c) = logsumexp s b x + c := by
  unfold logsumexp
  have h1 : ∀ k ∈ s, b k * Real.exp (x k + c) = (b k * Real.exp (x k)) * Real.exp c :=
    fun k _ => by rw [Real.exp_add]; ring
  rw [Finset.sum_congr rfl h1, ← Finset.sum_mul,
    Real.log_mul (ne_of_gt hpos) (Real.exp_ne_zero c), Real.log_exp]

/-- Adding a constant `c` to every `f[k]` adds `c` to every per-sample log
denominator. -/
theorem log_denominator_f_shift (u : Fin K → Fin n → ℝ) (N f : Fin K → ℝ) (c : ℝ)
    (hN0 : ∀ k, 0 ≤ N k) (hNex : ∃ k, 0 < N k) (i : Fin n) :
    log_denominator_n u N (fun k => f k + c) i = log_denominator_n u N f i + c := by
  simp only [log_denominator_n]
  rw [logsumexp_congr Finset.univ N
      (fun k => by ring : ∀ k, f k + c - u k i = (f k - u k i) + c),
    logsumexp_shift_all Finset.univ N _ c (den_pos N _ hN0 hNex)]

/-- Adding a constant `c` to every `f[k]` subtracts `c` from every per-state
log numerator. -/
theorem log_numerator_f_shift (u : Fin K → Fin n → ℝ) (N f : Fin K → ℝ) (c : ℝ)
    (hN0 : ∀ k, 0 ≤ N k) (hNex : ∃ k, 0 < N k) (hn : 0 < n) (k : Fin K) :
    log_numerator_k u N (fun j => f j + c) k = log_numerator_k u N f k - c := by
  simp only [log_numerator_k, log_denominator_f_shift u N f c hN0 hNex]
  rw [logsumexp_congr Finset.univ (fun _ => (1 : ℝ))
      (fun i => by ring :
        ∀ i, -(log_denominator_n u N f i + c) - u k i
          = (-log_denominator_n u N f i - u k i) + -c),
    logsumexp_shift_all Finset.univ (fun _ => (1 : ℝ)) _ (-c) (one_exp_sum_pos hn _)]
  ring

/-- The weight matrix is exactly invariant under adding a constant to `f`. -/
theorem mbar_W_f_shift (u : Fin K → Fin n → ℝ) (N f : Fin K → ℝ) (c : ℝ)
    (hN0 : ∀ k, 0 ≤ N k) (hNex : ∃ k, 0 < N k) (i : Fin n) (k : Fin K) :
    mbar_W_nk u N (fun j => f j + c) i k = mbar_W_nk u N f i k := by
  simp only [mbar_W_nk, mbar_log_W_nk, log_denominator_f_shift u N f c hN0 hNex]
  congr 1
  ring

/-- C8: with all states populated and at least one sample, adding a constant
`c` to every entry of `f` leaves `mbar_gradient` and `mbar_hessian` exactly
unchanged and shifts `self_consistent_update` by exactly `c`. -/
theorem free_energy_shift_invariance (u : Fin K → Fin n → ℝ) (N f : Fin K → ℝ) (c : ℝ)
    (hN : ∀ k, 0 < N k) (hn : 0 < n) :
    mbar_gradient u N (fun k => f k + c) = mbar_gradient u N f ∧
    mbar_hessian u N (fun k => f k + c) = mbar_hessian u N f ∧
    self_consistent_update u N (fun k => f k + c)
      = fun k => self_consistent_update u N f k + c := by
  have hN0 : ∀ k, 0 ≤ N k := fun k => (hN k).le
  refine ⟨?_, ?_, ?_⟩
  · funext k
    have hNex : ∃ j, 0 < N j := ⟨k, hN k⟩
    simp only [mbar_gradient, log_numerator_f_shift u N f c hN0 hNex hn]
    rw [show f k + c + (log_numerator_k u N f k - c)
        = f k + log_numerator_k u N f k from by ring]
  · funext j k
    have hNex : ∃ j', 0 < N j' := ⟨j, hN j⟩
    simp only [mbar_hessian, mbar_W_f_shift u N f c hN0 hNex]
  · funext k
    have hNex : ∃ j, 0 < N j := ⟨k, hN k⟩
    have hscu_ld : ∀ i, scu_log_denominator_n u N (fun j => f j + c) i
        = scu_log_denominator_n u N f i + c := by
      intro i
      simp only [scu_log_denominator_n]
      rw [logsumexp_congr (states_with_samples N) N
          (fun j => by ring : ∀ j, f j + c - u j i = (f j - u j i) + c),
        logsumexp_shift_all (states_with_samples N) N _ c (den_filter_pos N _ hNex)]
    simp only [self_consistent_update, hscu_ld]
    rw [logsumexp_congr Finset.univ (fun _ => (1 : ℝ))
        (fun i => by ring :
          ∀ i, -(scu_log_denominator_n u N f i + c) - u k i
            = (-scu_log_denominator_n u N f i - u k i) + -c),
      logsumexp_shift_all Finset.univ (fun _ => (1 : ℝ)) _ (-c) (one_exp_sum_pos hn _)]
    ring

/-- Witness for C8 at a concrete input. -/
theorem free_energy_shift_invariance_witness :
    (∀ k : Fin 1, 0 < (fun _ : Fin 1 => (1 : ℝ)) k) ∧ 0 < 1 ∧
    mbar_gradient (fun (_ : Fin 1) (_ : Fin 1) => (0 : ℝ)) (fun _ => 1)
        (fun k => (fun _ : Fin 1 => (0 : ℝ)) k + 1)
      = mbar_gradient (fun (_ : Fin 1) (_ : Fin 1) => (0 : ℝ)) (fun _ => 1) (fun _ => 0) := by
  have hN : ∀ k : Fin 1, 0 < (fun _ : Fin 1 => (1 : ℝ)) k := fun k => by norm_num
  exact ⟨hN, Nat.one_pos,
    (free_energy_shift_invariance (fun _ _ => 0) (fun _ => 1) (fun _ => 0) 1 hN
      Nat.one_pos).1⟩

/-! ### Per-sample shifts of the energy matrix (claim C4) -/

/-- Shifting every column of `u` by a per-sample constant `s i` subtracts
`s i` from the per-sample log denominator. -/
theorem log_denominator_u_shift (u : Fin K → Fin n → ℝ) (N g : Fin K → ℝ)
    (s : Fin n → ℝ) (hN0 : ∀ k, 0 ≤ N k) (hNex : ∃ k, 0 < N k) (i : Fin n) :
    log_denominator_n (fun k i' => u k i' + s i') N g i
      = log_denominator_n u N g i - s i := by
  simp only [log_denominator_n]
  rw [logsumexp_congr Finset.univ N
      (fun k => by ring : ∀ k, g k - (u k i + s i) = (g k - u k i) + -s i),
    logsumexp_shift_all Finset.univ N _ (-s i) (den_pos N _ hN0 hNex)]
  ring

/-- The per-state log numerator is exactly invariant under per-sample shifts of
the energy matrix. -/
theorem log_numerator_u_shift (u : Fin K → Fin n → ℝ) (N g : Fin K → ℝ)
    (s : Fin n → ℝ) (hN0 : ∀ k, 0 ≤ N k) (hNex : ∃ k, 0 < N k) (k : Fin K) :
    log_numerator_k (fun k' i' => u k' i' + s i') N g k = log_numerator_k u N g k := by
  simp only [log_numerator_k, log_denominator_u_shift u N g s hN0 hNex]
  exact logsumexp_congr Finset.univ (fun _ => (1 : ℝ)) (fun i => by ring)

/-- The weight matrix is exactly invariant under per-sample shifts of the
energy matrix. -/
theorem mbar_W_u_shift (u : Fin K → Fin n → ℝ) (N g : Fin K → ℝ)
    (s : Fin n → ℝ) (hN0 : ∀ k, 0 ≤ N k) (hNex : ∃ k, 0 < N k) (i : Fin n) (k : Fin K) :
    mbar_W_nk (fun k' i' => u k' i' + s i') N g i k = mbar_W_nk u N g i k := by
  simp only [mbar_W_nk, mbar_log_W_nk, log_denominator_u_shift u N g s hN0 hNex]
  congr 1
  ring

/-- The additive per-sample constant introduced by `precondition_u_kn`. -/
def preconditioning_shift (u : Fin K → Fin n → ℝ) (N f : Fin K → ℝ) (i : Fin n) : ℝ :=
  logsumexp Finset.univ N (fun j => f j - (u j i - column_min u i))
    - (∑ j, N j * f j) / (∑ j, N j) - column_min u i

/-- `precondition_u_kn` is the addition of a per-sample constant to `u`. -/
theorem precondition_eq_shift (u : Fin K → Fin n → ℝ) (N f : Fin K → ℝ) :
    precondition_u_kn u N f = fun k i => u k i + preconditioning_shift u N f i := by
  funext k i
  simp only [precondition_u_kn, preconditioning_shift]
  ring

/-- C4: when the counts sum to the number of samples, the preconditioned
objective is exactly zero at the current estimate, and the gradient and
Hessian are exactly unchanged by preconditioning, at every estimate `g`. -/
theorem precondition_objective_zero_derivatives_unchanged
    (u : Fin K → Fin n → ℝ) (N f : Fin K → ℝ)
    (hN0 : ∀ k, 0 ≤ N k) (hNex : ∃ k, 0 < N k) (hsum : ∑ k, N k = (n : ℝ)) :
    (mbar_objective_and_gradient (precondition_u_kn u N f) N f).1 = 0 ∧
    (∀ g, mbar_gradient (precondition_u_kn u N f) N g = mbar_gradient u N g) ∧
    (∀ g, mbar_hessian (precondition_u_kn u N f) N g = mbar_hessian u N g) := by
  have hnR : (0 : ℝ) < (n : ℝ) := by
    obtain ⟨k0, hk0⟩ := hNex
    have : 0 < ∑ k, N k := Finset.sum_pos' (fun k _ => hN0 k) ⟨k0, Finset.mem_univ _, hk0⟩
    rwa [hsum] at this
  refine ⟨?_, ?_, ?_⟩
  · show mbar_objective (precondition_u_kn u N f) N f = 0
    rw [precondition_eq_shift u N f]
    simp only [mbar_objective, log_denominator_u_shift u N f (preconditioning_shift u N f)
      hN0 hNex]
    have hL : ∀ i, logsumexp Finset.univ N (fun j => f j - (u j i - column_min u i))
        = log_denominator_n u N f i + column_min u i := by
      intro i
      rw [logsumexp_congr Finset.univ N
          (fun j => by ring :
            ∀ j, f j - (u j i - column_min u i) = (f j - u j i) + column_min u i),
        logsumexp_shift_all Finset.univ N _ (column_min u i) (den_pos N _ hN0 hNex)]
      rfl
    have hC : ∀ i : Fin n, log_denominator_n u N f i - preconditioning_shift u N f i
        = (∑ k, N k * f k) / (∑ k, N k) := by
      intro i
      rw [preconditioning_shift, hL i]
      ring
    rw [Finset.sum_congr rfl (fun i _ => hC i), Finset.sum_const, Finset.card_univ,
      Fintype.card_fin, nsmul_eq_mul, hsum, mul_comm,
      div_mul_cancel₀ _ (ne_of_gt hnR), sub_self]
  · intro g
    rw [precondition_eq_shift u N f]
    funext k
    simp only [mbar_gradient,
      log_numerator_u_shift u N g (preconditioning_shift u N f) hN0 hNex]
  · intro g
    rw [precondition_eq_shift u N f]
    funext j k
    simp only [mbar_hessian, mbar_W_u_shift u N g (preconditioning_shift u N f) hN0 hNex]

/-- Witness for C4 at a concrete input. -/
theorem precondition_objective_zero_witness :
    (∀ k : Fin 1, 0 ≤ (fun _ : Fin 1 => (1 : ℝ)) k) ∧
    (∃ k : Fin 1, 0 < (fun _ : Fin 1 => (1 : ℝ)) k) ∧
    (∑ k : Fin 1, (fun _ : Fin 1 => (1 : ℝ)) k) = ((1 : ℕ) : ℝ) ∧
    (mbar_objective_and_gradient
        (precondition_u_kn (fun (_ : Fin 1) (_ : Fin 1) => (0 : ℝ)) (fun _ => 1) (fun _ => 0))
        (fun _ => 1) (fun _ => 0)).1 = 0 := by
  have h1 : ∀ k : Fin 1, 0 ≤ (fun _ : Fin 1 => (1 : ℝ)) k := fun k => by norm_num
  have h2 : ∃ k : Fin 1, 0 < (fun _ : Fin 1 => (1 : ℝ)) k := ⟨0, by norm_num⟩
  have h3 : (∑ k : Fin 1, (fun _ : Fin 1 => (1 : ℝ)) k) = ((1 : ℕ) : ℝ) := by simp
  exact ⟨h1, h2, h3,
    (precondition_objective_zero_derivatives_unchanged (fun _ _ => 0) (fun _ => 1)
      (fun _ => 0) h1 h2 h3).1⟩

/-! ### Normalization of the weight matrix at a stationary point (claim C3) -/

/-- C3 (amended): at any populated state `k` where the gradient vanishes
exactly, the column sum of the weight matrix is exactly 1:
`sum_n W[n][k] = 1` (equivalently `sum_n N[k] * W[n][k] = N[k]`, not 1). -/
theorem weight_column_sums_one_at_stationary (u : Fin K → Fin n → ℝ) (N f : Fin K → ℝ)
    (k : Fin K) (hN : 0 < N k) (hg : mbar_gradient u N f k = 0) (hn : 0 < n) :
    ∑ i, mbar_W_nk u N f i k = 1 := by
  have h1 : Real.exp (f k + log_numerator_k u N f k) = 1 := by
    have hNne : -N k ≠ 0 := by simpa using ne_of_gt hN
    unfold mbar_gradient at hg
    rcases mul_eq_zero.mp hg with h | h
    · exact absurd h hNne
    · linarith
  have hpos : 0 < ∑ i, (1 : ℝ) * Real.exp (-log_denominator_n u N f i - u k i) :=
    one_exp_sum_pos hn _
  have hexp : Real.exp (log_numerator_k u N f k)
      = ∑ i, (1 : ℝ) * Real.exp (-log_denominator_n u N f i - u k i) := by
    unfold log_numerator_k logsumexp
    exact Real.exp_log hpos
  calc ∑ i, mbar_W_nk u N f i k
      = ∑ i, Real.exp (f k) * ((1 : ℝ) * Real.exp (-log_denominator_n u N f i - u k i)) := by
        refine Finset.sum_congr rfl (fun i _ => ?_)
        unfold mbar_W_nk mbar_log_W_nk
        rw [one_mul, ← Real.exp_add]
        congr 1
        ring
    _ = Real.exp (f k) * ∑ i, (1 : ℝ) * Real.exp (-log_denominator_n u N f i - u k i) := by
        rw [Finset.mul_sum]
    _ = Real.exp (f k) * Real.exp (log_numerator_k u N f k) := by rw [hexp]
    _ = Real.exp (f k + log_numerator_k u N f k) := by rw [← Real.exp_add]
    _ = 1 := h1

/-- Witness for the amended C3 at a concrete input. -/
theorem weight_column_sums_one_at_stationary_witness :
    0 < (fun _ : Fin 1 => (1 : ℝ)) 0 ∧
    mbar_gradient (fun (_ : Fin 1) (_ : Fin 1) => (0 : ℝ)) (fun _ => 1) (fun _ => 0) 0 = 0 ∧
    0 < 1 ∧
    ∑ i : Fin 1, mbar_W_nk (fun (_ : Fin 1) (_ : Fin 1) => (0 : ℝ)) (fun _ => 1)
      (fun _ => 0) i 0 = 1 := by
  have hg : mbar_gradient (fun (_ : Fin 1) (_ : Fin 1) => (0 : ℝ)) (fun _ => 1)
      (fun _ => 0) 0 = 0 := by
    simp [mbar_gradient, log_numerator_k, log_denominator_n, logsumexp, Fin.sum_univ_one]
  exact ⟨by norm_num, hg, Nat.one_pos,
    weight_column_sums_one_at_stationary _ _ _ 0 (by norm_num) hg Nat.one_pos⟩

/-- Counterexample to C3 as stated: one state with two samples and `N[0] = 2`,
`u = 0`, `f = 0`.  The gradient is exactly zero (maximal convergence), the
state is populated, yet `sum_n N[0] * W[n][0] = 2`, not approximately 1. -/
theorem normalization_claim_cex :
    (∀ k : Fin 1, mbar_gradient (fun (_ : Fin 1) (_ : Fin 2) => (0 : ℝ)) (fun _ => 2)
        (fun _ => 0) k = 0) ∧
    0 < ((fun _ : Fin 1 => (2 : ℝ)) 0) ∧
    (∑ i : Fin 2, (fun _ : Fin 1 => (2 : ℝ)) 0 * mbar_W_nk
        (fun (_ : Fin 1) (_ : Fin 2) => (0 : ℝ)) (fun _ => 2) (fun _ => 0) i 0) = 2 ∧
    (2 : ℝ) ≠ 1 := by
  have hld : ∀ i : Fin 2, log_denominator_n (fun (_ : Fin 1) (_ : Fin 2) => (0 : ℝ))
      (fun _ => 2) (fun _ => 0) i = Real.log 2 := by
    intro i
    simp [log_denominator_n, logsumexp, Fin.sum_univ_one]
  have hexp2 : Real.exp (-Real.log 2) = 2⁻¹ := by
    rw [Real.exp_neg, Real.exp_log (by norm_num : (0 : ℝ) < 2)]
  have hnum : log_numerator_k (fun (_ : Fin 1) (_ : Fin 2) => (0 : ℝ)) (fun _ => 2)
      (fun _ => 0) 0 = 0 := by
    simp only [log_numerator_k, logsumexp, hld, Fin.sum_univ_two, sub_zero, one_mul, hexp2]
    rw [show (2⁻¹ + 2⁻¹ : ℝ) = 1 by norm_num, Real.log_one]
  have hg : ∀ k : Fin 1, mbar_gradient (fun (_ : Fin 1) (_ : Fin 2) => (0 : ℝ))
      (fun _ => 2) (fun _ => 0) k = 0 := by
    intro k
    have hk : k = 0 := Subsingleton.elim k 0
    subst hk
    simp [mbar_gradient, hnum]
  have hW : ∀ i : Fin 2, mbar_W_nk (fun (_ : Fin 1) (_ : Fin 2) => (0 : ℝ)) (fun _ => 2)
      (fun _ => 0) i 0 = 2⁻¹ := by
    intro i
    simp [mbar_W_nk, mbar_log_W_nk, hld, hexp2]
  refine ⟨hg, by norm_num, ?_, by norm_num⟩
  rw [Fin.sum_univ_two, hW 0, hW 1]
  norm_num

/-! ### Adaptive hybrid iterator (lines 235-346)

The solver-level functions index the reference state as coordinate 0, so they
are stated over `Fin (K + 1)` states.  `np.linalg.lstsq` is an external
library routine (spec section 6 collaborators), abstracted as the function
parameter `lstsq`; every theorem below quantifies over it. -/

/-- The options dictionary passed to `adaptive`; lines 267-271 apply
`setdefault` for `verbose`, `maximum_iterations`, `print_warning` and `gamma`.
A `none` field stands for an absent key. -/
structure AdaptiveOptions where
  verbose : Option Bool := none
  maximum_iterations : Option ℕ := none
  print_warning : Option Bool := none
  gamma : Option ℝ := none

/-- Python errors surfaced by the embedded control flow.  `preconditionError`
stands for the PreconditionError the spec postulates for zero-count inputs;
the source never raises it. -/
inductive PyError where
  | attributeError
  | preconditionError
  deriving DecidableEq

/-- The Newton-Raphson candidate of one adaptive iteration (lines 293-297):
`Hinvg = lstsq(H, g)`, re-anchored by subtracting its first component, applied
with damping `γ`. -/
def adaptiveFnr (u : Fin (K + 1) → Fin n → ℝ) (N : Fin (K + 1) → ℝ)
    (lstsq : (Fin (K + 1) → Fin (K + 1) → ℝ) → (Fin (K + 1) → ℝ) → (Fin (K + 1) → ℝ))
    (γ : ℝ) (f : Fin (K + 1) → ℝ) : Fin (K + 1) → ℝ :=
  fun k => f k - γ * (lstsq (mbar_hessian u N f) (mbar_gradient u N f) k
    - lstsq (mbar_hessian u N f) (mbar_gradient u N f) 0)

/-- The self-consistent candidate (lines 300-301), re-anchored at state 0. -/
def adaptiveFsci (u : Fin (K + 1) → Fin n → ℝ) (N f : Fin (K + 1) → ℝ) :
    Fin (K + 1) → ℝ :=
  fun k => self_consistent_update u N f k - self_consistent_update u N f 0

/-- The squared gradient norm `np.dot(g, g)` (lines 303 and 307). -/
def gradNormSq (u : Fin (K + 1) → Fin n → ℝ) (N f : Fin (K + 1) → ℝ) : ℝ :=
  ∑ k, mbar_gradient u N f k * mbar_gradient u N f k

/-- One pass of the adaptive loop body (lines 293-328): compute both
candidates, pick `f_sci` when its squared gradient norm is lower or fewer than
two self-consistent steps have been taken so far, else `f_nr`; the second
component is the updated self-consistent step counter. -/
def adaptiveStep (u : Fin (K + 1) → Fin n → ℝ) (N : Fin (K + 1) → ℝ)
    (lstsq : (Fin (K + 1) → Fin (K + 1) → ℝ) → (Fin (K + 1) → ℝ) → (Fin (K + 1) → ℝ))
    (γ : ℝ) (f : Fin (K + 1) → ℝ) (sciIter : ℕ) : (Fin (K + 1) → ℝ) × ℕ :=
  if gradNormSq u N (adaptiveFsci u N f) < gradNormSq u N (adaptiveFnr u N lstsq γ f)
      ∨ sciIter < 2
  then (adaptiveFsci u N f, sciIter + 1)
  else (adaptiveFnr u N lstsq γ f, sciIter)

/-- One pass of the loop as a transformation of the pair
`(estimate, sci counter)`. -/
def adaptiveIter (u : Fin (K + 1) → Fin n → ℝ) (N : Fin (K + 1) → ℝ)
    (lstsq : (Fin (K + 1) → Fin (K + 1) → ℝ) → (Fin (K + 1) → ℝ) → (Fin (K + 1) → ℝ))
    (γ : ℝ) (p : (Fin (K + 1) → ℝ) × ℕ) : (Fin (K + 1) → ℝ) × ℕ :=
  adaptiveStep u N lstsq γ p.1 p.2

/-- `np.max` over the non-reference coordinates (the `[1:]` slice); junk value
0 when `K = 0`, a case where numpy raises on the empty max. -/
def tailMax (g : Fin (K + 1) → ℝ) : ℝ :=
  if h : (Finset.univ.filter (fun k : Fin (K + 1) => k ≠ 0)).Nonempty
  then (Finset.univ.filter (fun k : Fin (K + 1) => k ≠ 0)).sup' h g
  else 0

/-- The termination test of lines 331-332,
`max_delta = np.max(np.abs(f_k[1:] - f_old[1:])) / np.max(np.abs(f_k[1:]))`,
`break` when `np.isnan(max_delta) or max_delta < tol`, transcribed into exact
arithmetic through the IEEE semantics of the division of nonnegative floats:
a positive denominator gives an ordinary quotient compared against `tol`; a
zero denominator with positive numerator gives `+inf` (neither NaN nor below
`tol`: not converged); `0/0` gives NaN, which the `np.isnan` branch treats as
converged. -/
def adaptiveConverged (tol : ℝ) (fnew fold : Fin (K + 1) → ℝ) : Prop :=
  if tailMax (fun k => |fnew k|) = 0 then tailMax (fun k => |fnew k - fold k|) = 0
  else tailMax (fun k => |fnew k - fold k|) / tailMax (fun k => |fnew k|) < tol

/-- The observable outcome of the adaptive iteration loop: final estimate, the
previous estimate at the last executed iteration, the number of iterations
executed, and the convergence flag (`false` means the cap was exhausted and
the warning of lines 344-345 is printed; no exception is raised). -/
structure AdaptiveResult (K : ℕ) where
  f : Fin (K + 1) → ℝ
  fPrev : Fin (K + 1) → ℝ
  steps : ℕ
  converged : Bool

/-- The `for` loop of lines 292-334 as a fuel-indexed recursion: each pass
runs one `adaptiveStep`, breaks when the relative-change test fires, and falls
through after `fuel` passes.  `done` counts iterations already executed. -/
def adaptiveGo (u : Fin (K + 1) → Fin n → ℝ) (N : Fin (K + 1) → ℝ)
    (lstsq : (Fin (K + 1) → Fin (K + 1) → ℝ) → (Fin (K + 1) → ℝ) → (Fin (K + 1) → ℝ))
    (γ tol : ℝ) : ℕ → (Fin (K + 1) → ℝ) → ℕ → ℕ → AdaptiveResult K
  | 0, f, _, done => ⟨f, f, done, false⟩
  | fuel + 1, f, sci, done =>
    let p := adaptiveStep u N lstsq γ f sci
    if adaptiveConverged tol p.1 f then ⟨p.1, f, done + 1, true⟩
    else adaptiveGo u N lstsq γ tol fuel p.1 p.2 (done + 1)

/-- `adaptive` (lines 235-346).  With `options = None`, line 268
(`options.setdefault`) raises `AttributeError` before anything else happens.
Otherwise the missing keys are defaulted (`verbose=False`,
`maximum_iterations=250`, `print_warning=False`, `gamma=1.0`) and the loop of
lines 292-334 runs, its final estimate being returned at line 346.  The
`pdb.set_trace()` suspension of lines 278-279 is modelled separately by
`adaptivePreLoopEffects`: after an interactive `continue` the computation
proceeds unchanged, so it does not affect the returned value. -/
def adaptive (u : Fin (K + 1) → Fin n → ℝ) (N : Fin (K + 1) → ℝ)
    (lstsq : (Fin (K + 1) → Fin (K + 1) → ℝ) → (Fin (K + 1) → ℝ) → (Fin (K + 1) → ℝ))
    (f : Fin (K + 1) → ℝ) (tol : ℝ) (options : Option AdaptiveOptions) :
    Except PyError (AdaptiveResult K) :=
  match options with
  | none => .error .attributeError
  | some o =>
    .ok (adaptiveGo u N lstsq (o.gamma.getD 1) tol (o.maximum_iterations.getD 250) f 0 0)

/-- Externally visible effects of `adaptive` before its iteration loop. -/
inductive AdaptiveEffect where
  | printLine
  | debuggerSuspend
  deriving DecidableEq

/-- The effect trace of `adaptive` from entry to the start of its iteration
loop, traced from lines 267-291: with `options = None` the `setdefault` call
raises first and nothing is emitted; otherwise the optional verbose banner
(lines 275-276), then the unconditional `pdb.set_trace()` debugger suspension
(lines 278-279), then the tolerance warning (lines 282-283) when
`tol < 1.5e-15`. -/
def adaptivePreLoopEffects (options : Option AdaptiveOptions) (tol : ℝ) :
    List AdaptiveEffect :=
  match options with
  | none => []
  | some o =>
    (if o.verbose.getD false = true then [AdaptiveEffect.printLine] else [])
      ++ [AdaptiveEffect.debuggerSuspend]
      ++ (if tol < 1.5e-15 then [AdaptiveEffect.printLine] else [])

/-- C2 (against the claim; the code is the slip): every call to `adaptive`
that gets past the options line — any dictionary `options`, whatever the other
inputs — reaches the `pdb.set_trace()` of lines 278-279 and suspends awaiting
interactive debugger input before its first iteration, so the call is not a
plain blocking computation free of suspension points. -/
theorem adaptive_reaches_debugger_suspension (o : AdaptiveOptions) (tol : ℝ) :
    AdaptiveEffect.debuggerSuspend ∈ adaptivePreLoopEffects (some o) tol := by
  unfold adaptivePreLoopEffects
  simp

/-- C5: one pass of the adaptive loop selects the self-consistent candidate
exactly when its squared gradient norm is smaller than the Newton candidate's
or fewer than two self-consistent steps have been taken so far in this call,
and otherwise selects the Newton candidate; the self-consistent step counter
increments exactly on a self-consistent selection. -/
theorem adaptive_selection_rule (u : Fin (K + 1) → Fin n → ℝ) (N : Fin (K + 1) → ℝ)
    (lstsq : (Fin (K + 1) → Fin (K + 1) → ℝ) → (Fin (K + 1) → ℝ) → (Fin (K + 1) → ℝ))
    (γ : ℝ) (f : Fin (K + 1) → ℝ) (sciIter : ℕ) :
    adaptiveStep u N lstsq γ f sciIter
      = if (∑ k, mbar_gradient u N (adaptiveFsci u N f) k
              * mbar_gradient u N (adaptiveFsci u N f) k)
            < (∑ k, mbar_gradient u N (adaptiveFnr u N lstsq γ f) k
              * mbar_gradient u N (adaptiveFnr u N lstsq γ f) k)
          ∨ sciIter < 2
        then (adaptiveFsci u N f, sciIter + 1)
        else (adaptiveFnr u N lstsq γ f, sciIter) := rfl

/-- The loop invariant bundle proved about `adaptiveGo` by induction on the
remaining fuel. -/
def adaptiveRunSpec (u : Fin (K + 1) → Fin n → ℝ) (N : Fin (K + 1) → ℝ)
    (lstsq : (Fin (K + 1) → Fin (K + 1) → ℝ) → (Fin (K + 1) → ℝ) → (Fin (K + 1) → ℝ))
    (γ tol : ℝ) (fuel : ℕ) (p : (Fin (K + 1) → ℝ) × ℕ) (done : ℕ)
    (r : AdaptiveResult K) : Prop :=
  done ≤ r.steps ∧ r.steps ≤ done + fuel ∧
  r.f = ((adaptiveIter u N lstsq γ)^[r.steps - done] p).1 ∧
  (r.converged = false → r.steps = done + fuel) ∧
  (r.converged = true →
    adaptiveConverged tol r.f r.fPrev ∧ done < r.steps ∧
    r.fPrev = ((adaptiveIter u N lstsq γ)^[r.steps - done - 1] p).1) ∧
  (r.converged = true ↔ ∃ m, 1 ≤ m ∧ m ≤ fuel ∧
    adaptiveConverged tol ((adaptiveIter u N lstsq γ)^[m] p).1
      ((adaptiveIter u N lstsq γ)^[m - 1] p).1)

theorem adaptiveGo_spec (u : Fin (K + 1) → Fin n → ℝ) (N : Fin (K + 1) → ℝ)
    (lstsq : (Fin (K + 1) → Fin (K + 1) → ℝ) → (Fin (K + 1) → ℝ) → (Fin (K + 1) → ℝ))
    (γ tol : ℝ) :
    ∀ (fuel : ℕ) (p : (Fin (K + 1) → ℝ) × ℕ) (done : ℕ),
      adaptiveRunSpec u N lstsq γ tol fuel p done
        (adaptiveGo u N lstsq γ tol fuel p.1 p.2 done) := by
  intro fuel
  induction fuel with
  | zero =>
    intro p done
    unfold adaptiveRunSpec
    simp only [adaptiveGo]
    refine ⟨le_refl _, by omega, ?_, fun _ => by omega, fun h => by simp at h, ?_⟩
    · rw [Nat.sub_self, Function.iterate_zero_apply]
    · constructor
      · intro h
        simp at h
      · rintro ⟨m, h1, h2, -⟩
        omega
  | succ fl ih =>
    intro p done
    unfold adaptiveRunSpec
    simp only [adaptiveGo]
    have hstep : adaptiveStep u N lstsq γ p.1 p.2 = adaptiveIter u N lstsq γ p := rfl
    rw [hstep]
    by_cases hc : adaptiveConverged tol (adaptiveIter u N lstsq γ p).1 p.1
    · rw [if_pos hc]
      refine ⟨?_, ?_, ?_, ?_, ?_, ?_⟩
      · show done ≤ done + 1
        omega
      · show done + 1 ≤ done + (fl + 1)
        omega
      · show (adaptiveIter u N lstsq γ p).1
          = ((adaptiveIter u N lstsq γ)^[done + 1 - done] p).1
        rw [show done + 1 - done = 1 by omega, Function.iterate_one]
      · intro h
        simp at h
      · intro _
        refine ⟨hc, Nat.lt_succ_self done, ?_⟩
        show p.1 = ((adaptiveIter u N lstsq γ)^[done + 1 - done - 1] p).1
        rw [show done + 1 - done - 1 = 0 by omega, Function.iterate_zero_apply]
      · constructor
        · intro _
          refine ⟨1, le_refl _, by omega, ?_⟩
          simpa [Function.iterate_one, Function.iterate_zero_apply] using hc
        · intro _
          rfl
    · rw [if_neg hc]
      have ih' := ih (adaptiveIter u N lstsq γ p) (done + 1)
      unfold adaptiveRunSpec at ih'
      obtain ⟨ih1, ih2, ih3, ih4, ih5, ih6⟩ := ih'
      set r := adaptiveGo u N lstsq γ tol fl (adaptiveIter u N lstsq γ p).1
        (adaptiveIter u N lstsq γ p).2 (done + 1) with hr
      refine ⟨by omega, by omega, ?_, fun h => by have := ih4 h; omega, fun h => ?_, ?_⟩
      · rw [show r.steps - done = (r.steps - (done + 1)) + 1 by omega,
          Function.iterate_succ_apply]
        exact ih3
      · obtain ⟨hcv, hlt, hprev⟩ := ih5 h
        refine ⟨hcv, by omega, ?_⟩
        rw [show r.steps - done - 1 = (r.steps - (done + 1) - 1) + 1 by omega,
          Function.iterate_succ_apply]
        exact hprev
      · constructor
        · intro h
          obtain ⟨m, h1, h2, hcv⟩ := ih6.mp h
          refine ⟨m + 1, by omega, by omega, ?_⟩
          rw [show m + 1 - 1 = m by omega]
          rw [← Function.iterate_succ_apply] at hcv
          rw [← Function.iterate_succ_apply] at hcv
          rw [Nat.succ_eq_add_one, Nat.succ_eq_add_one,
            show m - 1 + 1 = m by omega] at hcv
          exact hcv
        · rintro ⟨m, h1, h2, hcv⟩
          by_cases hm : m = 1
          · subst hm
            simp only [Function.iterate_one, Nat.sub_self,
              Function.iterate_zero_apply] at hcv
            exact absurd hcv hc
          · refine ih6.mpr ⟨m - 1, by omega, by omega, ?_⟩
            rw [← Function.iterate_succ_apply, ← Function.iterate_succ_apply,
              Nat.succ_eq_add_one, Nat.succ_eq_add_one,
              show m - 1 + 1 = m by omega, show m - 1 - 1 + 1 = m - 1 by omega]
            exact hcv

/-- C6: the adaptive loop executes at most `maxIter` iterations and always
returns an ordinary result; the returned estimate is exactly the `steps`-fold
iterate of the loop body; a `false` convergence flag means exactly that the
cap was exhausted (reported as a diagnostic, not an exception); a `true` flag
means the relative max-change test `max|Δf[1:]| / max|f[1:]| < tol` (NaN
treated as converged) holds between the returned estimate and its
predecessor; and the flag is `true` exactly when some iteration within the cap
satisfies that test. -/
theorem adaptive_stopping_rule (u : Fin (K + 1) → Fin n → ℝ) (N : Fin (K + 1) → ℝ)
    (lstsq : (Fin (K + 1) → Fin (K + 1) → ℝ) → (Fin (K + 1) → ℝ) → (Fin (K + 1) → ℝ))
    (γ tol : ℝ) (maxIter : ℕ) (f0 : Fin (K + 1) → ℝ) :
    (adaptiveGo u N lstsq γ tol maxIter f0 0 0).steps ≤ maxIter ∧
    (adaptiveGo u N lstsq γ tol maxIter f0 0 0).f
      = ((adaptiveIter u N lstsq γ)^[(adaptiveGo u N lstsq γ tol maxIter f0 0 0).steps]
          (f0, 0)).1 ∧
    ((adaptiveGo u N lstsq γ tol maxIter f0 0 0).converged = false →
      (adaptiveGo u N lstsq γ tol maxIter f0 0 0).steps = maxIter) ∧
    ((adaptiveGo u N lstsq γ tol maxIter f0 0 0).converged = true →
      adaptiveConverged tol (adaptiveGo u N lstsq γ tol maxIter f0 0 0).f
        (adaptiveGo u N lstsq γ tol maxIter f0 0 0).fPrev) ∧
    ((adaptiveGo u N lstsq γ tol maxIter f0 0 0).converged = true ↔
      ∃ m, 1 ≤ m ∧ m ≤ maxIter ∧
        adaptiveConverged tol ((adaptiveIter u N lstsq γ)^[m] (f0, 0)).1
          ((adaptiveIter u N lstsq γ)^[m - 1] (f0, 0)).1) := by
  have h := adaptiveGo_spec u N lstsq γ tol maxIter (f0, 0) 0
  unfold adaptiveRunSpec at h
  obtain ⟨h1, h2, h3, h4, h5, h6⟩ := h
  refine ⟨by simpa using h2, by simpa using h3, fun hf => by simpa using h4 hf,
    fun ht => (h5 ht).1, h6⟩

/-- Witness instantiating the adaptive stopping rule at a concrete input. -/
theorem adaptive_stopping_rule_witness :
    (adaptiveGo (K := 0) (n := 1) (fun _ _ => 0) (fun _ => 1) (fun _ g => g) 1 1 0
        (fun _ => 0) 0 0).steps ≤ 0 :=
  (adaptive_stopping_rule (fun _ _ => 0) (fun _ => 1) (fun _ g => g) 1 1 0 (fun _ => 0)).1

/-! ### Single-stage solver and protocol drivers (lines 379-623) -/

/-- The `method` argument of `solve_mbar_once`: the adaptive hybrid, or one of
the `scipy.optimize.minimize` / `scipy.optimize.root` families dispatched at
lines 434-444.  The individual scipy method names are external-library
specific (spec section 6) and play no role in the embedded control flow. -/
inductive Method where
  | adaptive
  | scipyMinimize
  | scipyRoot
  deriving DecidableEq

/-- `pad = lambda x: np.pad(x, (1, 0), mode='constant')` (line 425):
re-insert the pinned reference coordinate `0` in front of a reduced vector. -/
def pad (x : Fin K → ℝ) : Fin (K + 1) → ℝ :=
  fun k => Fin.cases 0 x k

/-- `solve_mbar_once` (lines 379-456): validate, re-anchor `f[0] = 0`,
precondition `u`, then dispatch on `method`.  The scipy branches call the
external optimizer on the `K` reduced coordinates and pad its solution (lines
434-444); the external solver is abstracted as the parameter `scipy`.  The
source performs no positivity check on `N_k_nonzero` (its docstring only
states the caller's obligation), so no code path produces
`PyError.preconditionError`.  The warning-replay block of lines 446-453 runs
only when scipy emitted warnings and does not change the returned value. -/
def solve_mbar_once
    (scipy : Method → (Fin (K + 1) → Fin n → ℝ) → (Fin (K + 1) → ℝ) → ℝ →
      Option AdaptiveOptions → Fin K → ℝ)
    (lstsq : (Fin (K + 1) → Fin (K + 1) → ℝ) → (Fin (K + 1) → ℝ) → (Fin (K + 1) → ℝ))
    (u : Fin (K + 1) → Fin n → ℝ) (N f : Fin (K + 1) → ℝ)
    (method : Method) (tol : ℝ) (options : Option AdaptiveOptions) :
    Except PyError (Fin (K + 1) → ℝ) :=
  let f1 := fun k => f k - f 0
  let u1 := precondition_u_kn u N f1
  match method with
  | Method.adaptive => (adaptive u1 N lstsq f1 tol options).map (fun r => r.f)
  | m => Except.ok (pad (scipy m u1 f1 tol options))

/-- One stage of a solver protocol: the keyword arguments it passes to
`solve_mbar_once`, with the signature defaults of line 379
(`method="hybr"` — a root-finder — `tol=1E-12`, `options=None`) standing in
for absent keys. -/
structure SolverStage where
  method : Method := Method.scipyRoot
  tol : ℝ := 1e-12
  options : Option AdaptiveOptions := none

/-- `DEFAULT_SOLVER_PROTOCOL = (dict(method="adaptive"),)` (line 13): one
adaptive stage, specifying neither `tol` nor `options`. -/
def DEFAULT_SOLVER_PROTOCOL : List SolverStage := [{ method := Method.adaptive }]

/-- `DEFAULT_SUBSAMPLING_PROTOCOL = (dict(method="adaptive"),)` (line 12). -/
def DEFAULT_SUBSAMPLING_PROTOCOL : List SolverStage := [{ method := Method.adaptive }]

/-- `solve_mbar` (lines 459-506): fold `solve_mbar_once` over the protocol
stages (`DEFAULT_SOLVER_PROTOCOL` when `None` is passed), each stage starting
from the previous stage's estimate; a Python exception raised in a stage
propagates to the caller. -/
def solve_mbar
    (scipy : Method → (Fin (K + 1) → Fin n → ℝ) → (Fin (K + 1) → ℝ) → ℝ →
      Option AdaptiveOptions → Fin K → ℝ)
    (lstsq : (Fin (K + 1) → Fin (K + 1) → ℝ) → (Fin (K + 1) → ℝ) → (Fin (K + 1) → ℝ))
    (u : Fin (K + 1) → Fin n → ℝ) (N f : Fin (K + 1) → ℝ)
    (protocol : Option (List SolverStage)) : Except PyError (Fin (K + 1) → ℝ) :=
  (protocol.getD DEFAULT_SOLVER_PROTOCOL).foldlM
    (fun fk st => solve_mbar_once scipy lstsq u N fk st.method st.tol st.options) f

/-- The outcome of `solve_mbar_with_subsampling` together with the contents of
the three caller-owned arrays after the call returns (or after a propagated
exception).  The source never writes into the caller's `u_kn` or `N_k`; the
caller's `f_k` is written in place by the fancy-index assignments
`f_k[states_with_samples] = f_k_nonzero` of lines 614 and 617. -/
structure SubsamplingOutcome (K n : ℕ) where
  result : Except PyError (Fin (K + 1) → ℝ)
  callerF : Fin (K + 1) → ℝ
  callerU : Fin (K + 1) → Fin n → ℝ
  callerN : Fin (K + 1) → ℝ

/-- `solve_mbar_with_subsampling` (lines 568-623), in state-passing style for
the caller-owned arrays.  The two `solve_mbar` invocations on the restriction
of the data to the populated states (lines 607-612, with or without the
`subsample_data` hot start — which draws random samples — and line 615) are
abstracted as the parameters `solveFirst` and `solveFinal`, each mapping the
current full-length estimate to the populated-state solution extended to full
length; the mutation structure around them is traced exactly: in the
single-populated-state branch (lines 604-605) line 617 writes `0.0` into the
caller's `f_k` at the populated state; in the general branch line 614 writes
the first solution and line 617 the second into the populated entries; lines
620-621 then rebind the local name `f_k` to a fresh `self_consistent_update`
array re-anchored at state 0, leaving the caller's array in its line-614/617
state. -/
def solve_mbar_with_subsampling
    (solveFirst solveFinal : (Fin (K + 1) → ℝ) → Except PyError (Fin (K + 1) → ℝ))
    (u : Fin (K + 1) → Fin n → ℝ) (N f : Fin (K + 1) → ℝ) : SubsamplingOutcome K n :=
  if (Finset.univ.filter fun k => 0 < N k).card = 1 then
    let fM := fun k => if 0 < N k then (0 : ℝ) else f k
    let fNew := self_consistent_update u N fM
    ⟨Except.ok fun k => fNew k - fNew 0, fM, u, N⟩
  else
    match solveFirst f with
    | Except.error e => ⟨Except.error e, f, u, N⟩
    | Except.ok fA =>
      let fM1 := fun k => if 0 < N k then fA k else f k
      match solveFinal fM1 with
      | Except.error e => ⟨Except.error e, fM1, u, N⟩
      | Except.ok fB =>
        let fM2 := fun k => if 0 < N k then fB k else fM1 k
        let fNew := self_consistent_update u N fM2
        ⟨Except.ok fun k => fNew k - fNew 0, fM2, u, N⟩

/-- C10: the default solver and subsampling protocols consist of a single
adaptive stage specifying no options mapping, and every `solve_mbar_once` call
with `method = "adaptive"` and `options = None` — hence every stage of the
default protocols — raises `AttributeError` from `None.setdefault` (line 268)
instead of applying the documented defaults and returning a result. -/
theorem default_adaptive_options_none_attribute_error :
    (∀ st ∈ DEFAULT_SOLVER_PROTOCOL, st.method = Method.adaptive ∧ st.options = none) ∧
    (∀ st ∈ DEFAULT_SUBSAMPLING_PROTOCOL,
      st.method = Method.adaptive ∧ st.options = none) ∧
    ∀ (L m : ℕ)
      (scipy : Method → (Fin (L + 1) → Fin m → ℝ) → (Fin (L + 1) → ℝ) → ℝ →
        Option AdaptiveOptions → Fin L → ℝ)
      (lstsq : (Fin (L + 1) → Fin (L + 1) → ℝ) → (Fin (L + 1) → ℝ) → (Fin (L + 1) → ℝ))
      (u : Fin (L + 1) → Fin m → ℝ) (N f : Fin (L + 1) → ℝ) (tol : ℝ),
      solve_mbar_once scipy lstsq u N f Method.adaptive tol none
        = Except.error PyError.attributeError := by
  refine ⟨?_, ?_, ?_⟩
  · intro st hst
    simp only [DEFAULT_SOLVER_PROTOCOL, List.mem_singleton] at hst
    subst hst
    exact ⟨rfl, rfl⟩
  · intro st hst
    simp only [DEFAULT_SUBSAMPLING_PROTOCOL, List.mem_singleton] at hst
    subst hst
    exact ⟨rfl, rfl⟩
  · intro L m scipy lstsq u N f tol
    rfl

/-- Witness instantiating C10 at a concrete default-protocol call. -/
theorem default_adaptive_options_none_attribute_error_witness :
    solve_mbar_once (K := 1) (n := 1) (fun _ _ _ _ _ => fun _ => 0) (fun _ g => g)
        (fun _ _ => 0) (fun _ => 1) (fun _ => 0) Method.adaptive 1 none
      = Except.error PyError.attributeError :=
  default_adaptive_options_none_attribute_error.2.2 1 1 _ _ _ _ _ 1

/-- C7 (amended): `solve_mbar_once` performs no positivity check on
`N_k_nonzero`: with any options dictionary present, a call with any counts
vector — zero entries included — proceeds through preconditioning and the
solve and returns an ordinary result; no code path raises a
precondition-violation error or drops a state. -/
theorem solve_mbar_once_no_positivity_check
    (scipy : Method → (Fin (K + 1) → Fin n → ℝ) → (Fin (K + 1) → ℝ) → ℝ →
      Option AdaptiveOptions → Fin K → ℝ)
    (lstsq : (Fin (K + 1) → Fin (K + 1) → ℝ) → (Fin (K + 1) → ℝ) → (Fin (K + 1) → ℝ))
    (u : Fin (K + 1) → Fin n → ℝ) (N f : Fin (K + 1) → ℝ)
    (method : Method) (tol : ℝ) (o : AdaptiveOptions) :
    ∃ y, solve_mbar_once scipy lstsq u N f method tol (some o) = Except.ok y := by
  cases method
  · exact ⟨_, rfl⟩
  · exact ⟨_, rfl⟩
  · exact ⟨_, rfl⟩

/-- Counterexample to C7 as stated: a `solve_mbar_once` call whose
`N_k_nonzero = [1, 0]` has a non-positive entry (the adaptive method, an
options dictionary present) returns an ordinary result — no
precondition-violation error is raised before or during solving. -/
theorem solve_mbar_once_zero_count_accepted_cex :
    ¬ (0 < (![1, 0] : Fin 2 → ℝ) 1) ∧
    ∃ y, solve_mbar_once (K := 1) (n := 1)
        (fun _ _ _ _ _ => fun _ => 0) (fun _ g => g)
        (fun _ _ => 0) ![1, 0] ![0, 0] Method.adaptive 1 (some {})
      = Except.ok y := by
  constructor
  · norm_num
  · exact ⟨_, rfl⟩

/-- C9 (amended): `solve_mbar_with_subsampling` leaves the caller's `u_kn` and
`N_k` arrays and the entries of the caller's `f_k` at unpopulated states
exactly as passed, but writes the solved populated-state free energies into
the caller's `f_k` in place (the companion counterexample exhibits a changed
entry), rather than returning modified data only as new arrays. -/
theorem subsampling_mutation_extent
    (solveFirst solveFinal : (Fin (K + 1) → ℝ) → Except PyError (Fin (K + 1) → ℝ))
    (u : Fin (K + 1) → Fin n → ℝ) (N f : Fin (K + 1) → ℝ) :
    (solve_mbar_with_subsampling solveFirst solveFinal u N f).callerU = u ∧
    (solve_mbar_with_subsampling solveFirst solveFinal u N f).callerN = N ∧
    ∀ k, ¬ 0 < N k →
      (solve_mbar_with_subsampling solveFirst solveFinal u N f).callerF k = f k := by
  unfold solve_mbar_with_subsampling
  split
  · exact ⟨rfl, rfl, fun k hk => by simp only [if_neg hk]⟩
  · split
    · exact ⟨rfl, rfl, fun k hk => rfl⟩
    · dsimp only
      split
      · exact ⟨rfl, rfl, fun k hk => by simp only [if_neg hk]⟩
      · exact ⟨rfl, rfl, fun k hk => by simp only [if_neg hk]⟩

/-- Witness for the amended C9 at a concrete input. -/
theorem subsampling_mutation_extent_witness :
    ¬ (0 < (![1, 0] : Fin 2 → ℝ) 1) ∧
    (solve_mbar_with_subsampling (K := 1) (n := 1)
        (fun g => Except.ok g) (fun g => Except.ok g)
        (fun _ _ => 0) ![1, 0] ![5, 0]).callerF 1 = (![5, 0] : Fin 2 → ℝ) 1 := by
  have hk : ¬ (0 < (![1, 0] : Fin 2 → ℝ) 1) := by norm_num
  exact ⟨hk, (subsampling_mutation_extent _ _ _ _ _).2.2 1 hk⟩

/-- Counterexample to C9 as stated: with one populated state (`N = [1, 0]`)
and caller estimate `f = [5, 0]`, after `solve_mbar_with_subsampling` returns
the caller's `f_k` array holds `0` at index 0 where it held `5` before the
call: a caller-owned input array was mutated in place. -/
theorem subsampling_caller_f_mutated_cex :
    (solve_mbar_with_subsampling (K := 1) (n := 1)
        (fun g => Except.ok g) (fun g => Except.ok g)
        (fun _ _ => 0) ![1, 0] ![5, 0]).callerF 0 ≠ (![5, 0] : Fin 2 → ℝ) 0 := by
  have h1 : (Finset.univ.filter fun k : Fin 2 => 0 < (![1, 0] : Fin 2 → ℝ) k).card = 1 := by
    have hfil : (Finset.univ.filter fun k : Fin 2 => 0 < (![1, 0] : Fin 2 → ℝ) k)
        = {0} := by
      ext k
      fin_cases k <;> simp [Finset.mem_filter]
    rw [hfil]
    rfl
  unfold solve_mbar_with_subsampling
  rw [if_pos h1]
  show (if 0 < (![1, 0] : Fin 2 → ℝ) 0 then (0 : ℝ) else (![5, 0] : Fin 2 → ℝ) 0)
    ≠ (![5, 0] : Fin 2 → ℝ) 0
  rw [if_pos (by norm_num : (0 : ℝ) < (![1, 0] : Fin 2 → ℝ) 0)]
  norm_num

end

end Pymbar
